import Mathlib

/-!
Verification of the `molpro::linalg` iterative subspace solver
(`IterativeSolver.h`, `itsolv/wrap.h`) against its specification.

The development shallowly embeds the solver's bookkeeping and decision
logic.  Machine floating-point scalars are idealised as exact rationals
(`ℚ`); calls into the external Eigen library (SVD factorisations,
`JacobiSVD::solve`, `EigenSolver`) are modelled as oracle parameters whose
outputs are supplied to the embedded control flow, mirroring the fact that
the solver only consumes their results.  Square roots of scalars are
represented by an explicitly supplied value constrained by a hypothesis
`s * s = x ∧ 0 ≤ s`, which is exact at the concrete inputs used by the
witnesses.
-/

namespace ItSolv

/-- Error outcomes surfaced by `throw` statements in the solver. -/
inductive SolverError
| zeroNorm
| nanDetected
| complexUnsupported
deriving DecidableEq, Repr

/-- Large vectors, idealised as finite lists of exact rationals.  The code
only touches them through dot / axpy / scal, which we embed below. -/
abbrev Vec := List ℚ

/-- `dot` of the vector handler: Euclidean inner product. -/
def vdot (a b : Vec) : ℚ := (List.zipWith (fun x y => x * y) a b).sum

/-- `b.axpy(σ, a)`: `b ← b + σ·a` (componentwise, equal lengths). -/
def vaxpy (σ : ℚ) (a b : Vec) : Vec := List.zipWith (fun x y => y + σ * x) a b

/-- `a.scal(σ)`: `a ← σ·a`. -/
def vscal (σ : ℚ) (a : Vec) : Vec := a.map (fun x => σ * x)

/-- A zero vector of a given dimension (result of `scal(0)` on possibly
uninitialised storage, as documented for the handler). -/
def vzero (dim : ℕ) : Vec := List.replicate dim 0

/-- `std::fabs` / `std::abs` on the idealised scalars. -/
def qabs (x : ℚ) : ℚ := if x < 0 then -x else x

/-!
## `itsolv/wrap.h`: `wrap` and `find_ref`

`wrap(seq)` produces one `reference_wrapper` per element of `seq` in
order; `find_ref(wparams, begin, end)` walks positions `begin..end` of the
original sequence and records the distance from `begin` for every position
whose address occurs among the wrapped references.  We identify a
reference with the position (address) of the element it refers to, so
`wrap` of a sequence of length `n` is `List.range n`, and a set of wrapped
references taken from the sequence is a list of positions `< n`.
-/

/-- `wrap(seq)` for a sequence of length `n`: references to positions
`0..n-1` in order. -/
def wrapRefs (n : ℕ) : List ℕ := List.range n

/-- `find_ref(wparams, begin, end)`: for each position `i` of the original
range (of length `n`), emit `i` when some wrapped reference in `wparams`
has the address of position `i`. -/
def find_ref (wparams : List ℕ) (n : ℕ) : List ℕ :=
  (List.range n).filter (fun i => decide (i ∈ wparams))

/-!
## `IterativeSolver::addVector`: entry guard (early return)

Lines 168–176 of `IterativeSolver.h`: default `m_roots` from the buffer
size, create the initial working set only when both the Q space and the
working set are empty, and return `0` immediately when the working set is
empty.  The remainder of `addVector` is abstracted as a continuation
`rest`, which the early path never invokes.
-/

/-- The solver state components consulted or mutated by the `addVector`
entry guard, plus the frame components the early-return claim is about. -/
structure SolverState where
  roots : ℕ
  working_set : List ℕ
  qspaceKeys : List ℕ
  pspaceSize : ℕ
  errors : List ℚ
  q_solutions : List ℕ
  iterations : ℕ
deriving DecidableEq, Repr

/-- `IterativeSolver::addVector` entry: `m_roots` defaulting, initial
working-set creation, and the `m_working_set.size() == 0` early return.
The untranslated remainder of the member function is the continuation
`rest`. -/
def addVectorEntry
    (rest : SolverState → List Vec → List Vec → ℕ × SolverState × List Vec × List Vec)
    (st : SolverState) (parameters action : List Vec) :
    ℕ × SolverState × List Vec × List Vec :=
  let st1 := if st.roots < 1 then { st with roots := parameters.length } else st
  let st2 :=
    if st1.qspaceKeys.length = 0 ∧ st1.working_set = [] then
      { st1 with working_set := List.range parameters.length }
    else st1
  if st2.working_set.length = 0 then (0, st2, parameters, action)
  else rest st2 parameters action

/-!
## `IterativeSolver::addVector`: working-set pruning (lines 297–344)

After the reduced solve, the working set has been reset to `0..m_roots-1`
and `m_errors[root]` holds the estimated residual norm of each root.  The
final loop removes a root from the working set when
`m_linear && m_errors[root] < m_thresh`, and on first convergence
(`m_q_solutions.count(root) == 0`) records the root in `m_q_solutions`
(the converged solution is also pushed to the Q space, which lives in the
external `Q.h`; we track the recorded roots).  The call returns
`m_working_set.size()`.
-/

/-- One pass of the convergence loop of `addVector` over the (reset)
working set: drops converged roots, records first convergences. Returns
the final working set and the updated recorded-solutions list. -/
def pruneWorkingSet (linear : Bool) (thresh : ℚ) (errors : List ℚ) :
    List ℕ → List ℕ → List ℕ × List ℕ
  | qsols, [] => ([], qsols)
  | qsols, root :: rows =>
    let qsols' := if linear = true ∧ errors.getD root 0 < thresh ∧ root ∉ qsols
      then qsols ++ [root] else qsols
    if linear = true ∧ errors.getD root 0 < thresh then
      pruneWorkingSet linear thresh errors qsols' rows
    else
      let r := pruneWorkingSet linear thresh errors qsols' rows
      (root :: r.1, r.2)

/-- The tail of `addVector`: reset the working set to `0..roots-1`, prune
converged roots, and return `m_working_set.size()` together with the final
working set and recorded solutions. -/
def addVectorFinalize (linear : Bool) (thresh : ℚ) (roots : ℕ) (errors : List ℚ)
    (qsols : List ℕ) : ℕ × List ℕ × List ℕ :=
  let r := pruneWorkingSet linear thresh errors qsols (List.range roots)
  (r.1.length, r.1, r.2)

/-!
## `diagonalizeSubspaceMatrix`: realification of the eigenvectors

Lines 887–898 of `IterativeSolver.h`.  After Eigen's `EigenSolver` returns
eigenvalues and eigenvectors of `Hbar`, the code tests the norms of their
imaginary parts jointly against `1e-10`.  If both are negligible it maps the
real parts back (`V Σ^{-1/2} evec.real()`); otherwise it keeps the complex
eigenvectors (`V Σ^{-1/2} evec`) — except when compiled with the Intel
compiler (`__INTEL_COMPILER`), where it throws.  `realPart` and `full` stand
for the two mapped-back matrices; the norms are the values computed by Eigen.
-/

/-- The realification step of `diagonalizeSubspaceMatrix`, with the platform
condition `__INTEL_COMPILER` as an explicit flag. -/
def realifyEigenvectors (α : Type) (intelCompiler : Bool) (evalImagNorm evecImagNorm : ℚ)
    (realPart full : α) : Except SolverError α :=
  if evalImagNorm < mkRat 1 10000000000 ∧ evecImagNorm < mkRat 1 10000000000 then .ok realPart
  else if intelCompiler = true then .error .complexUnsupported
  else .ok full

/-- The realification step as claim C7 states it: negligible imaginary parts
take the real part, and anything else raises a fatal error unconditionally. -/
def realifyEigenvectorsClaim (α : Type) (evalImagNorm evecImagNorm : ℚ)
    (realPart : α) : Except SolverError α :=
  if evalImagNorm < mkRat 1 10000000000 ∧ evecImagNorm < mkRat 1 10000000000 then .ok realPart
  else .error .complexUnsupported

/-!
## `DIIS::solveReducedProblem`

Lines 1645–1694 of `IterativeSolver.h`.  With `nDim = nX - 1`, the code
copies `B = m_subspaceMatrix.block(0,0,nDim,nDim)` and
`Rhs = -m_subspaceMatrix.block(0,nDim,nDim,1)`, calls Eigen's
`JacobiSVD(B).setThreshold(m_svdThreshold).solve(Rhs)`, throws on any NaN
coefficient, and stores the coefficients in rows `0..nDim-1` of the
interpolation column with `1` in the last row.  The Eigen solve is the
oracle parameter `svdSolve`; NaN is an explicit scalar constructor since it
is only produced by the external solve and consumed by `std::isnan`.
-/

/-- Scalars of the DIIS reduced solve: an exact value or IEEE NaN. -/
inductive DScalar
| num (q : ℚ)
| nan
deriving DecidableEq, Repr

/-- `std::isnan` on a DIIS scalar. -/
def DScalar.isNaN : DScalar → Bool
  | .nan => true
  | .num _ => false

/-- Negation of a DIIS scalar (`-NaN` is `NaN`). -/
def DScalar.negate : DScalar → DScalar
  | .nan => .nan
  | .num q => .num (-q)

/-- `B`: the leading `nDim × nDim` block of the subspace matrix (entries
outside the copied block are immaterial and set to `0`). -/
def diisB (nDim : ℕ) (H : ℕ → ℕ → DScalar) : ℕ → ℕ → DScalar :=
  fun i j => if i < nDim ∧ j < nDim then H i j else .num 0

/-- `Rhs`: minus the first `nDim` rows of the last column of the subspace
matrix. -/
def diisRhs (nDim : ℕ) (H : ℕ → ℕ → DScalar) : List DScalar :=
  (List.range nDim).map (fun i => (H i nDim).negate)

/-- `DIIS::solveReducedProblem`, acting on the `nX × nX` subspace matrix `H`;
returns the interpolation column or the fatal NaN error. -/
def diisSolveReducedProblem
    (svdSolve : ℚ → ℕ → (ℕ → ℕ → DScalar) → List DScalar → List DScalar)
    (svdThreshold : ℚ) (nX : ℕ) (H : ℕ → ℕ → DScalar) :
    Except SolverError (List DScalar) :=
  let nDim := nX - 1
  if 0 < nDim then
    let Coeffs := (svdSolve svdThreshold nDim (diisB nDim H) (diisRhs nDim H)).take nDim
    if Coeffs.any DScalar.isNaN then .error .nanDetected
    else .ok (Coeffs ++ [DScalar.num 1])
  else .ok [DScalar.num 1]

/-!
## Conditioning: `propose_singularity_deletion` and `buildSubspace`

Lines 697–729 and 781–816 of `IterativeSolver.h`.  The Jacobi SVD of the
leading `n × n` block of the singularity tester is computed by Eigen and is
external to the solver; its outputs — the singular values and the
right-singular-vector matrix `V` — are inputs here.  `buildSubspace` selects
the threshold (`1e6` when `nQ > maxQ`, else `m_singularity_threshold`),
builds the candidate list from the Q rows not associated with a converged
root, and on a non-negative proposal removes that Q row and rebuilds
(recursively); the loop ends when the proposal is `-1`.
-/

/-- `std::min_element` over a list of rationals: index of the first smallest
element (`0` for the empty list). -/
def argminIdx (l : List ℚ) : ℕ :=
  (List.range l.length).foldl (fun b i => if l.getD i 0 < l.getD b 0 then i else b) 0

/-- `IterativeSolver::propose_singularity_deletion`, given the singular
values `sv` and right-singular-vector matrix `V` of the SVD of the leading
`n × n` block: find the most singular direction; return `-1` if its singular
value exceeds the threshold, otherwise return the first candidate whose
coefficient in that singular vector exceeds `1e-3` in magnitude (`-1` if
none does). -/
def propose_singularity_deletion (n : ℕ) (sv : List ℚ) (V : ℕ → ℕ → ℚ)
    (candidates : List ℕ) (threshold : ℚ) : Int :=
  if threshold < (sv.take n).getD (argminIdx (sv.take n)) 0 then -1
  else
    ((candidates.find?
        (fun k => decide (mkRat 1 1000 < qabs (V k (argminIdx (sv.take n)))))).map
      (fun k => Int.ofNat k)).getD (-1)

/-- The eviction choice as claim C2 states it: among the candidates whose
coefficient in the most singular right-singular vector exceeds `1e-3`, prefer
the largest coefficient magnitude. -/
def proposeSingularityDeletionClaim (n : ℕ) (sv : List ℚ) (V : ℕ → ℕ → ℚ)
    (candidates : List ℕ) (threshold : ℚ) : Int :=
  if threshold < (sv.take n).getD (argminIdx (sv.take n)) 0 then -1
  else
    (((candidates.filter
        (fun k => decide (mkRat 1 1000 < qabs (V k (argminIdx (sv.take n)))))).argmax
        (fun k => qabs (V k (argminIdx (sv.take n))))).map
      (fun k => Int.ofNat k)).getD (-1)

/-- Whether Q row `a` is currently associated with a converged root: some
entry of `m_q_solutions` has the key of row `a` as its value
(`buildSubspace`, lines 784–789). -/
def isSolutionRow (keys : List ℕ) (q_solutions : List (ℕ × ℕ)) (a : ℕ) : Bool :=
  q_solutions.any (fun x => keys.getD a 0 == x.2)

/-- The eviction candidates built by `buildSubspace`: the offsets `oQ + a`
of the Q rows not associated with a converged root, in ascending order of
`a` (`oQ = nP`). -/
def singularityCandidates (nP : ℕ) (keys : List ℕ) (q_solutions : List (ℕ × ℕ)) :
    List ℕ :=
  ((List.range keys.length).filter
    (fun a => ! isSolutionRow keys q_solutions a)).map (fun a => nP + a)

/-- The threshold passed by `buildSubspace` to the singularity proposal:
`1e6` when `nQ` exceeds `maxQ` (forcing eviction), the configured
singularity threshold otherwise. -/
def conditioningThreshold (nQ maxQ : ℕ) (singularity_threshold : ℚ) : ℚ :=
  if maxQ < nQ then 1000000 else singularity_threshold

/-- The dimension of the SVD block tested for redundancy:
`m_exclude_r_from_redundancy_test ? nX - nR : nX`. -/
def conditionBlockSize (nP nR : ℕ) (excludeR : Bool) (nQ : ℕ) : ℕ :=
  if excludeR = true then nP + nQ + nR - nR else nP + nQ + nR

/-- The eviction proposal made by one `buildSubspace` pass on the current Q
keys: block size per `m_exclude_r_from_redundancy_test`, SVD data from the
oracle, candidates from the non-solution Q rows, threshold per the Q size. -/
def conditionProposal (svd : List ℕ → List ℚ × (ℕ → ℕ → ℚ))
    (q_solutions : List (ℕ × ℕ)) (nP nR maxQ : ℕ) (singularity_threshold : ℚ)
    (excludeR : Bool) (keys : List ℕ) : Int :=
  propose_singularity_deletion (conditionBlockSize nP nR excludeR keys.length)
    (svd keys).1 (svd keys).2 (singularityCandidates nP keys q_solutions)
    (conditioningThreshold keys.length maxQ singularity_threshold)

/-- The conditioning recursion of `buildSubspace`, as a recursion on the
list of Q keys.  The reduced matrices depend on the surviving Q rows only
through which rows survive, so the SVD of the singularity tester is the
oracle `svd` mapping the current key list to (singular values, `V`).  Fuel
bounds the recursion; every eviction removes one Q row, so the initial Q
size (used by `buildSubspaceCondition`) is an exact bound. -/
def buildSubspaceConditionLoop (svd : List ℕ → List ℚ × (ℕ → ℕ → ℚ))
    (q_solutions : List (ℕ × ℕ)) (nP nR maxQ : ℕ) (singularity_threshold : ℚ)
    (excludeR : Bool) : ℕ → List ℕ → List ℕ
  | 0, keys => keys
  | fuel + 1, keys =>
    if keys.length = 0 then keys
    else if 0 ≤ conditionProposal svd q_solutions nP nR maxQ singularity_threshold
        excludeR keys then
      buildSubspaceConditionLoop svd q_solutions nP nR maxQ singularity_threshold
        excludeR fuel
        (keys.eraseIdx ((conditionProposal svd q_solutions nP nR maxQ
          singularity_threshold excludeR keys).toNat - nP))
    else keys

/-- The conditioning phase of one `buildSubspace` call: run the eviction
recursion starting from the current Q keys. -/
def buildSubspaceCondition (svd : List ℕ → List ℚ × (ℕ → ℕ → ℚ))
    (q_solutions : List (ℕ × ℕ)) (nP nR maxQ : ℕ) (singularity_threshold : ℚ)
    (excludeR : Bool) (keys : List ℕ) : List ℕ :=
  buildSubspaceConditionLoop svd q_solutions nP nR maxQ singularity_threshold
    excludeR keys.length keys

/-- A concrete right-singular-vector matrix used by the C2 counterexample:
an orthogonal `2 × 2` matrix whose most-singular column `(3/5, 4/5)` has two
coefficients above `1e-3`, the second being the larger.  Together with
singular values `(2, 1/2)` it is the SVD data of the matrix
`U·diag(2, 1/2)·Vᵀ` for any orthogonal `U`. -/
def svdVexample : ℕ → ℕ → ℚ :=
  fun k j =>
    if j = 1 then (if k = 0 then mkRat 3 5 else mkRat 4 5)
    else (if k = 0 then mkRat 4 5 else -(mkRat 3 5))

/-!
## `IterativeSolver::doInterpolation` (lines 1014–1067)

Per working-set root, the solution is accumulated from the P block (skipped
in action-only mode), the Q block, and the R block; the residual from the Q
and R action vectors.  If the variant uses the eigen-residual convention
(`m_residual_eigen`), the squared norm `⟨s,s⟩` of the assembled solution is
computed; a zero norm throws, otherwise both vectors are rescaled by
`1/sqrt(⟨s,s⟩)`.  Then, unless in action-only mode, `λ_root · solution` is
subtracted from the residual (also in the augmented-hessian rhs mode), and
in rhs mode the right-hand side is subtracted.  `sqrtNorm` stands for
`std::sqrt(norm)`; theorems constrain it by `sqrtNorm * sqrtNorm = norm` and
`0 ≤ sqrtNorm`.
-/

/-- The interpolated solution for one root: P contributions (skipped in
action-only mode), then Q, then R, accumulated by `axpy` from a zeroed
vector. -/
def interpSolution (interp : ℕ → ℕ → ℚ) (nP nQ nR : ℕ)
    (pvecs qvecs rvecs : List Vec) (root : ℕ) (actionOnly : Bool) (dim : ℕ) :
    Vec :=
  let s1 := if actionOnly = true then vzero dim else
    (List.range nP).foldl
      (fun s l => vaxpy (interp l root) (pvecs.getD l (vzero dim)) s) (vzero dim)
  let s2 := (List.range nQ).foldl
    (fun s q => vaxpy (interp (nP + q) root) (qvecs.getD q (vzero dim)) s) s1
  (List.range nR).foldl
    (fun s c => vaxpy (interp (nP + nQ + c) root) (rvecs.getD c (vzero dim)) s) s2

/-- The interpolated residual for one root: Q action and R action
contributions (P actions are the caller's responsibility). -/
def interpResidual (interp : ℕ → ℕ → ℚ) (nP nQ nR : ℕ)
    (qacts vacts : List Vec) (root : ℕ) (dim : ℕ) : Vec :=
  let r1 := (List.range nQ).foldl
    (fun r q => vaxpy (interp (nP + q) root) (qacts.getD q (vzero dim)) r)
    (vzero dim)
  (List.range nR).foldl
    (fun r c => vaxpy (interp (nP + nQ + c) root) (vacts.getD c (vzero dim)) r) r1

/-- The trailing subtractions of `doInterpolation`: `λ_root · solution` off
the residual when not action-only and the variant is eigen (or rhs with
positive augmented hessian), and the right-hand side when not action-only in
rhs mode. -/
def doInterpPost (actionOnly residual_eigen residual_rhs : Bool)
    (augmented_hessian eigval : ℚ) (rhsRoot : Vec) (s r : Vec) : Vec :=
  let r1 := if actionOnly = false ∧ (residual_eigen = true ∨
      (residual_rhs = true ∧ 0 < augmented_hessian)) then vaxpy (-eigval) s r
    else r
  if actionOnly = false ∧ residual_rhs = true then vaxpy (-1) rhsRoot r1 else r1

/-- The body of the per-root loop of `doInterpolation`: assemble solution
and residual, apply the eigen renormalisation (throwing on an exactly zero
norm), then the trailing subtractions. -/
def doInterpolationRoot (interp : ℕ → ℕ → ℚ) (nP nQ nR : ℕ)
    (pvecs qvecs qacts rvecs vacts : List Vec)
    (residual_eigen residual_rhs : Bool) (augmented_hessian eigval : ℚ)
    (rhsRoot : Vec) (root : ℕ) (actionOnly : Bool) (dim : ℕ) (sqrtNorm : ℚ) :
    Except SolverError (Vec × Vec) :=
  let sol := interpSolution interp nP nQ nR pvecs qvecs rvecs root actionOnly dim
  let res := interpResidual interp nP nQ nR qacts vacts root dim
  if residual_eigen = true then
    if vdot sol sol = 0 then .error .zeroNorm
    else .ok (vscal (1/sqrtNorm) sol,
      doInterpPost actionOnly residual_eigen residual_rhs augmented_hessian
        eigval rhsRoot (vscal (1/sqrtNorm) sol) (vscal (1/sqrtNorm) res))
  else .ok (sol,
    doInterpPost actionOnly residual_eigen residual_rhs augmented_hessian
      eigval rhsRoot sol res)

/-!
## `Optimize::solveReducedProblem` (lines 1428–1530)

With a non-empty Q space, the code computes `step`, `f0`, `f1`, `g0`, `g1`;
tests `g1 < m_thresh` and the Wolfe conditions; on failure fits a cubic
through `(0, f0, g0)` and `(1, f1, g1)` (`interpolatedMinimum`), rejects a
minimum that brackets the wrong way, and then either takes a line-search
step of `(α - 1)·step` (clipping a missing or too-large α to the grow
factor) or — when `|α - 1| < m_linesearch_tolerance` — accepts after all
("don't bother with linesearch").  `sqrtD` stands for
`std::sqrt(discriminant)`; it is exact at the counterexample's inputs.
The embedding covers the decision down to the accept/line-search outcome;
the L-BFGS column construction after `accept:` is not needed by the claim.
-/

/-- The discriminant of the cubic fit (line 1410). -/
def cubicDiscriminant (f0 f1 g0 g1 : ℚ) : ℚ :=
  (3*f0 - 3*f1 + g0)^2 + (6*f0 - 6*f1 + g0)*g1 + g1^2

/-- `Optimize::interpolatedMinimum` with `x0 = 0`, `x1 = 1` (as called):
the location and value of the preferred turning point of the cubic through
`(0, f0, g0)` and `(1, f1, g1)`, or `none` when the parabola opens downwards
or the cubic has no turning points. -/
def interpolatedMinimum (f0 f1 g0 g1 sqrtD : ℚ) : Option (ℚ × ℚ) :=
  if qabs (2*f1 - g1 - 2*f0 - g0) < 1/10000000000 then
    let c2 := (g1 - g0)/2
    if c2 < 0 then none
    else
      let x := 0 + (-(1/2) * g0 / c2) * (1 - 0)
      some (x, f0 + g0*x + c2*x*x)
  else if cubicDiscriminant f0 f1 g0 g1 < 0 then none
  else
    let alpham := if 2*f0 - 2*f1 + g0 + g1 = 0 then g0 / (2*f1 - 2*f0 - 2*g1)
      else (3*f0 - 3*f1 + 2*g0 + g1 - sqrtD) / (3*(2*f0 - 2*f1 + g0 + g1))
    let alphap := if 2*f0 - 2*f1 + g0 + g1 = 0 then g0 / (2*f1 - 2*f0 - 2*g1)
      else (3*f0 - 3*f1 + 2*g0 + g1 + sqrtD) / (3*(2*f0 - 2*f1 + g0 + g1))
    let fm := f0 + alpham*(g0 + alpham*(-(3*f0) + 3*f1 - 2*g0 - g1 +
      alpham*(2*f0 - 2*f1 + g0 + g1)))
    let fp := f0 + alphap*(g0 + alphap*(-(3*f0) + 3*f1 - 2*g0 - g1 +
      alphap*(2*f0 - 2*f1 + g0 + g1)))
    some (0 + (if fm < fp then alpham else alphap) * (1 - 0), min fm fp)

/-- The interpolated minimum after the wrong-way bracket rejection of
`solveReducedProblem` (lines 1469–1471). -/
def guardedMinimum (f0 f1 g0 g1 sqrtD : ℚ) : Option (ℚ × ℚ) :=
  match interpolatedMinimum f0 f1 g0 g1 sqrtD with
  | none => none
  | some af =>
    if (0 < g0 ∧ 0 < g1 ∧ 0 < af.1) ∨ (g0 < 0 ∧ g1 < 0 ∧ af.1 < 1) then none
    else some af

/-- Outcome of `Optimize::solveReducedProblem` with a non-empty Q space:
accept the current point, or ask for a further line-search step of the
recorded length. -/
inductive OptOutcome
| accept
| linesearch (steplength : ℚ)
deriving DecidableEq, Repr

/-- The accept / line-search decision of `Optimize::solveReducedProblem`
for a non-empty Q space, in terms of the derived quantities `step`, `f0`,
`f1`, `g0`, `g1` (lines 1436–1505). -/
def optimizeDecide (strong : Bool) (thresh c1 c2 tol grow step f0 f1 g0 g1 sqrtD : ℚ) :
    OptOutcome :=
  let Wolfe_1 := decide (f1 ≤ f0 + c1 * g0)
  let Wolfe_2 := if strong then decide (c2 * g0 ≤ g1)
    else decide (qabs g1 ≤ c2 * qabs g0)
  if decide (g1 < thresh) || (Wolfe_1 && Wolfe_2) then .accept
  else
    match guardedMinimum f0 f1 g0 g1 sqrtD with
    | none => .linesearch ((grow - 1) * step)
    | some af =>
      if grow < af.1 then .linesearch ((grow - 1) * step)
      else if qabs (af.1 - 1) < tol then .accept
      else .linesearch ((af.1 - 1) * step)

/-!
## `diagonalizeSubspaceMatrix`: eigenpair sorting (lines 902–932) and
`LinearEigensystem::solveReducedProblem` (lines 1156–1183)

Eigen's `EigenSolver` supplies the raw eigenpairs of `Hbar` (complex
eigenvalue, mapped-back eigenvector column).  The sort block runs a
selection sort: at step `k`, `ll` starts as the smallest index not yet in
`map`, is replaced by any unmapped `l` whose eigenvalue has a strictly
smaller real part, and is appended to `map`; eigenvalue `k` and eigenvector
column `k` are taken from index `ll`.  `LinearEigensystem`'s reduced solve
then takes the interpolation matrix as the real part of the leading
`min(m_roots, rows)` columns of the eigenvector matrix (the S-metric
orthonormalisation in between rescales columns in place and does not
reorder them).
-/

/-- A complex column vector: list of (re, im) entries. -/
abbrev CVec := List (ℚ × ℚ)

/-- `for (ll = 0; std::count(map.begin(), map.end(), ll) != 0; ll++);` —
the smallest index not yet mapped (sought among `0..map.size()`, which
suffices when the mapped indices are distinct). -/
def firstUnmapped (m : List ℕ) : ℕ :=
  ((List.range (m.length + 1)).find? (fun l => decide (l ∉ m))).getD 0

/-- The inner scan of the selection sort: starting from the first unmapped
index, replace `ll` by any unmapped `l` with strictly smaller value. -/
def selectNext (vals : List ℚ) (m : List ℕ) : ℕ :=
  (List.range vals.length).foldl
    (fun ll l => if l ∉ m ∧ vals.getD l 0 < vals.getD ll 0 then l else ll)
    (firstUnmapped m)

/-- The first `k` steps of the selection sort: the map of chosen indices. -/
def sortSteps (vals : List ℚ) : ℕ → List ℕ
  | 0 => []
  | k + 1 => sortSteps vals k ++ [selectNext vals (sortSteps vals k)]

/-- The complete selection permutation over all eigenpairs. -/
def sortPerm (vals : List ℚ) : List ℕ := sortSteps vals vals.length

/-- The sorted eigenpairs: pair `k` of the result is the pair at `map[k]`
of the input (`vals` are the real parts compared by the code). -/
def sortEigenpairs (ps : List ((ℚ × ℚ) × CVec)) : List ((ℚ × ℚ) × CVec) :=
  (sortPerm (ps.map (fun p => p.1.1))).map (fun i => ps.getD i ((0, 0), []))

/-- `LinearEigensystem::solveReducedProblem`: the interpolation matrix is
`m_subspaceEigenvectors.block(0, 0, rows, min(int(m_roots), int(rows))).real()`
— the real part of the first `min(nRoots, nX)` eigenvector columns. -/
def eigenInterpolation (roots nXrows : ℕ) (vecs : List CVec) : List Vec :=
  (vecs.take (min roots nXrows)).map (fun col => col.map Prod.fst)

/-- The invariant of the selection sort: the chosen indices are distinct,
in range, their values are in non-decreasing order, and each chosen value
is at most every unchosen value. -/
def SortInv (vals : List ℚ) (m : List ℕ) : Prop :=
  m.Nodup ∧ (∀ x ∈ m, x < vals.length) ∧
  List.Pairwise (fun a b => vals.getD a 0 ≤ vals.getD b 0) m ∧
  (∀ x ∈ m, ∀ l < vals.length, l ∉ m → vals.getD x 0 ≤ vals.getD l 0)

/-!
## Theorems for C9, C10, C1
-/

/-- Claim C9: for every ordered sequence, `find_ref(wrap(seq), seq.begin, seq.end)`
returns the indices `0..len-1`, and for every subset of wrapped references taken
from the sequence, `find_ref` returns exactly that subset's indices in the
original sequence, in ascending order. -/
theorem find_ref_wrap_roundtrip (n : ℕ) (wparams : List ℕ) (h : ∀ i ∈ wparams, i < n) :
    find_ref (wrapRefs n) n = List.range n ∧
    List.Pairwise (fun a b => a < b) (find_ref wparams n) ∧
    (∀ i, i ∈ find_ref wparams n ↔ i ∈ wparams) := by
  refine ⟨?_, ?_, ?_⟩
  · unfold find_ref wrapRefs
    exact List.filter_eq_self.mpr (fun a ha => decide_eq_true ha)
  · exact (List.pairwise_lt_range n).filter _
  · intro i
    unfold find_ref
    rw [List.mem_filter]
    constructor
    · rintro ⟨-, hp⟩
      exact of_decide_eq_true hp
    · intro hi
      exact ⟨List.mem_range.mpr (h i hi), decide_eq_true hi⟩

/-- Witness for C9 at `n = 4`, `wparams = [1, 3]`. -/
theorem find_ref_wrap_roundtrip_witness :
    (∀ i ∈ [1, 3], i < 4) ∧
    (find_ref (wrapRefs 4) 4 = List.range 4 ∧
      List.Pairwise (fun a b => a < b) (find_ref [1, 3] 4) ∧
      (∀ i, i ∈ find_ref [1, 3] 4 ↔ i ∈ [1, 3])) :=
  ⟨by decide, find_ref_wrap_roundtrip 4 [1, 3] (by decide)⟩

/-- Claim C10: when the working set is empty on entry to `addVector` and the
Q space is non-empty (so no initial working set is created), the call returns
`0` immediately and leaves the caller's parameter and action vectors, the P/Q
subspace state and the recorded errors unchanged (only `m_roots` may be
defaulted from the buffer size). -/
theorem addVector_empty_working_set_frame
    (rest : SolverState → List Vec → List Vec → ℕ × SolverState × List Vec × List Vec)
    (st : SolverState) (parameters action : List Vec)
    (hws : st.working_set = []) (hq : st.qspaceKeys ≠ []) :
    addVectorEntry rest st parameters action =
      (0, { st with roots := if st.roots < 1 then parameters.length else st.roots },
        parameters, action) ∧
    (addVectorEntry rest st parameters action).2.1.qspaceKeys = st.qspaceKeys ∧
    (addVectorEntry rest st parameters action).2.1.pspaceSize = st.pspaceSize ∧
    (addVectorEntry rest st parameters action).2.1.errors = st.errors ∧
    (addVectorEntry rest st parameters action).2.1.q_solutions = st.q_solutions ∧
    (addVectorEntry rest st parameters action).2.1.working_set = [] := by
  obtain ⟨r0, w0, qk, ps, er, qs, it⟩ := st
  have hw : w0 = [] := hws
  subst hw
  have hq0 : ¬ qk.length = 0 := by
    simpa [List.length_eq_zero] using hq
  by_cases hr : r0 < 1 <;>
    simp [addVectorEntry, hq0, hr]

/-- Witness for C10 at a concrete state with one Q vector and an empty working
set; the continuation `rest` is demonstrably never consulted. -/
theorem addVector_empty_working_set_frame_witness :
    (([] : List ℕ) = [] ∧ ([5] : List ℕ) ≠ []) ∧
    addVectorEntry (fun _ _ _ => (42, ⟨9, [0], [], 0, [], [], 0⟩, [], []))
        ⟨0, [], [5], 1, [1/2], [7], 3⟩ [[1]] [[2]] =
      (0, ⟨1, [], [5], 1, [1/2], [7], 3⟩, [[1]], [[2]]) :=
  ⟨⟨rfl, by decide⟩,
    (addVector_empty_working_set_frame _ ⟨0, [], [5], 1, [1/2], [7], 3⟩ [[1]] [[2]]
      rfl (by decide)).1⟩

/-- Characterisation of the convergence-pruning loop for linear solvers:
the surviving working set is the ascending list of unconverged roots, and the
recorded solutions gain exactly the roots that converged now for the first
time. -/
theorem pruneWorkingSet_linear_spec (thresh : ℚ) (errors : List ℚ) (l qsols : List ℕ)
    (hl : l.Nodup) :
    pruneWorkingSet true thresh errors qsols l =
      (l.filter (fun root => decide (¬ errors.getD root 0 < thresh)),
       qsols ++ l.filter (fun root => decide (errors.getD root 0 < thresh ∧ root ∉ qsols))) := by
  induction l generalizing qsols with
  | nil => simp [pruneWorkingSet]
  | cons root rows ih =>
    have hroot : root ∉ rows := (List.nodup_cons.mp hl).1
    have hrows : rows.Nodup := (List.nodup_cons.mp hl).2
    by_cases hconv : errors.getD root 0 < thresh
    · by_cases hnew : root ∈ qsols
      · simp only [pruneWorkingSet, true_and]
        rw [if_pos hconv, if_neg (fun hc => hc.2 hnew), ih qsols hrows,
          List.filter_cons_of_neg (fun hd => (of_decide_eq_true hd) hconv),
          List.filter_cons_of_neg (fun hd => (of_decide_eq_true hd).2 hnew)]
      · simp only [pruneWorkingSet, true_and]
        rw [if_pos hconv, if_pos ⟨hconv, hnew⟩, ih (qsols ++ [root]) hrows]
        have hfeq : rows.filter
              (fun r => decide (errors.getD r 0 < thresh ∧ r ∉ qsols ++ [root])) =
            rows.filter (fun r => decide (errors.getD r 0 < thresh ∧ r ∉ qsols)) := by
          apply List.filter_congr
          intro x hx
          have hxne : x ≠ root := fun hxr => hroot (hxr ▸ hx)
          simp [List.mem_append, hxne]
        rw [hfeq, List.filter_cons_of_neg (fun hd => (of_decide_eq_true hd) hconv),
          @List.filter_cons_of_pos ℕ
            (fun r => decide (errors.getD r 0 < thresh ∧ r ∉ qsols)) root rows
            (decide_eq_true ⟨hconv, hnew⟩)]
        simp
    · simp only [pruneWorkingSet, true_and]
      rw [if_neg hconv, if_neg (fun hc => hconv hc.1), ih qsols hrows,
        @List.filter_cons_of_pos ℕ
          (fun r => decide (¬ errors.getD r 0 < thresh)) root rows
          (decide_eq_true hconv),
        List.filter_cons_of_neg (fun hd => hconv (of_decide_eq_true hd).1)]

/-- Claim C1 (amended): for linear solvers (`m_linear == true`), on exit from
`addVector` the working set contains exactly the unconverged roots (those with
estimated residual norm not below the threshold), in ascending order; a root is
recorded in `m_q_solutions` exactly on first convergence, so each root appears
there at most once; and the returned value equals the size of the working set
on exit.  (For non-linear solvers the working set is simply reset to all
roots, see the counterexample.) -/
theorem addVector_working_set_invariant (thresh : ℚ) (roots : ℕ) (errors : List ℚ)
    (qsols : List ℕ) (hnd : qsols.Nodup) :
    (addVectorFinalize true thresh roots errors qsols).2.1 =
      (List.range roots).filter (fun root => decide (¬ errors.getD root 0 < thresh)) ∧
    (∀ root, root ∈ (addVectorFinalize true thresh roots errors qsols).2.1 ↔
      root < roots ∧ ¬ errors.getD root 0 < thresh) ∧
    (addVectorFinalize true thresh roots errors qsols).2.2 =
      qsols ++ (List.range roots).filter
        (fun root => decide (errors.getD root 0 < thresh ∧ root ∉ qsols)) ∧
    (addVectorFinalize true thresh roots errors qsols).2.2.Nodup ∧
    (addVectorFinalize true thresh roots errors qsols).1 =
      (addVectorFinalize true thresh roots errors qsols).2.1.length := by
  have hspec := pruneWorkingSet_linear_spec thresh errors (List.range roots) qsols
    (List.nodup_range roots)
  have h1 : (addVectorFinalize true thresh roots errors qsols).2.1 =
      (List.range roots).filter (fun root => decide (¬ errors.getD root 0 < thresh)) := by
    simp [addVectorFinalize, hspec]
  have h3 : (addVectorFinalize true thresh roots errors qsols).2.2 =
      qsols ++ (List.range roots).filter
        (fun root => decide (errors.getD root 0 < thresh ∧ root ∉ qsols)) := by
    simp [addVectorFinalize, hspec]
  refine ⟨h1, ?_, h3, ?_, ?_⟩
  · intro root
    rw [h1, List.mem_filter, List.mem_range]
    simp
  · rw [h3]
    refine (hnd.append ((List.nodup_range roots).filter _) ?_)
    intro a ha hafil
    have := (List.mem_filter.mp hafil).2
    simp only [decide_eq_true_eq] at this
    exact this.2 ha
  · simp [addVectorFinalize]

/-- Witness for C1 at `roots = 3`, errors `[0, 2, 1/2]`, threshold `1`,
with root `2` already recorded: roots `0` and `2` are converged, root `1`
survives; only root `0` is newly recorded. -/
theorem addVector_working_set_invariant_witness :
    ([2] : List ℕ).Nodup ∧
    ((addVectorFinalize true 1 3 [0, 2, 1/2] [2]).2.1 =
      (List.range 3).filter (fun root => decide (¬ [(0:ℚ), 2, 1/2].getD root 0 < 1)) ∧
    (∀ root, root ∈ (addVectorFinalize true 1 3 [0, 2, 1/2] [2]).2.1 ↔
      root < 3 ∧ ¬ [(0:ℚ), 2, 1/2].getD root 0 < 1) ∧
    (addVectorFinalize true 1 3 [0, 2, 1/2] [2]).2.2 =
      [2] ++ (List.range 3).filter
        (fun root => decide ([(0:ℚ), 2, 1/2].getD root 0 < 1 ∧ root ∉ ([2] : List ℕ))) ∧
    (addVectorFinalize true 1 3 [0, 2, 1/2] [2]).2.2.Nodup ∧
    (addVectorFinalize true 1 3 [0, 2, 1/2] [2]).1 =
      (addVectorFinalize true 1 3 [0, 2, 1/2] [2]).2.1.length) :=
  ⟨by decide, addVector_working_set_invariant 1 3 [0, 2, 1/2] [2] (by decide)⟩

/-- Counterexample for C1 as stated: with a non-linear solver
(`m_linear == false`, as in DIIS and Optimize), a single root whose estimated
residual norm `0` lies below the threshold `1` nevertheless stays in the
working set, is not recorded in `m_q_solutions`, and the call returns `1`. -/
theorem addVector_working_set_nonlinear_cex :
    addVectorFinalize false 1 1 [0] [] = (1, [0], []) ∧ ((0:ℚ) < 1) := by
  constructor
  · rfl
  · norm_num

/-!
## Theorems for C7, C5
-/

/-- Claim C7 counterexample: with non-negligible imaginary parts (norms `1`)
on a platform that is not the Intel compiler, the eigensystem reduced solve
keeps the complex eigenvectors and raises no error, whereas the claim demands
a fatal error whenever the imaginary parts are not negligible. -/
theorem realify_off_intel_no_error_cex :
    realifyEigenvectors ℕ false 1 1 0 1 = .ok 1 ∧
    realifyEigenvectorsClaim ℕ 1 1 0 = .error .complexUnsupported := by
  have hneg : ¬ ((1:ℚ) < mkRat 1 10000000000 ∧ (1:ℚ) < mkRat 1 10000000000) := by decide
  constructor
  · rw [realifyEigenvectors, if_neg hneg, if_neg (fun hc => Bool.false_ne_true hc)]
  · rw [realifyEigenvectorsClaim, if_neg hneg]

/-- Claim C7 (amended): in the eigensystem reduced solve, if the imaginary
parts of the eigenvalue vector and the eigenvector matrix are jointly
negligible (norms below `1e-10`), the real parts are taken; otherwise the
complex eigenvectors are kept, except under the Intel compiler where a fatal
error is raised. -/
theorem realify_eigenvectors_spec (α : Type) (intel : Bool) (a b : ℚ)
    (realPart full : α) :
    (realifyEigenvectors α intel a b realPart full = .error .complexUnsupported ↔
      ¬ (a < mkRat 1 10000000000 ∧ b < mkRat 1 10000000000) ∧ intel = true) ∧
    ((a < mkRat 1 10000000000 ∧ b < mkRat 1 10000000000) →
      realifyEigenvectors α intel a b realPart full = .ok realPart) ∧
    (¬ (a < mkRat 1 10000000000 ∧ b < mkRat 1 10000000000) → intel = false →
      realifyEigenvectors α intel a b realPart full = .ok full) := by
  refine ⟨⟨?_, ?_⟩, ?_, ?_⟩
  · intro he
    by_cases h : a < mkRat 1 10000000000 ∧ b < mkRat 1 10000000000
    · rw [realifyEigenvectors, if_pos h] at he
      exact Except.noConfusion he
    · rw [realifyEigenvectors, if_neg h] at he
      cases hi : intel
      · rw [hi, if_neg (fun hc => Bool.false_ne_true hc)] at he
        exact Except.noConfusion he
      · exact ⟨h, rfl⟩
  · rintro ⟨h, hi⟩
    rw [realifyEigenvectors, if_neg h, hi, if_pos rfl]
  · intro h
    rw [realifyEigenvectors, if_pos h]
  · intro h hi
    rw [realifyEigenvectors, if_neg h, hi, if_neg (fun hc => Bool.false_ne_true hc)]

/-- Witness for C7 (amended) at concrete norms `1` (non-negligible): an error
under the Intel compiler, the complex matrix elsewhere. -/
theorem realify_eigenvectors_spec_witness :
    ¬ ((1:ℚ) < mkRat 1 10000000000 ∧ (1:ℚ) < mkRat 1 10000000000) ∧
    realifyEigenvectors ℕ true 1 1 0 1 = .error .complexUnsupported ∧
    realifyEigenvectors ℕ false 1 1 0 1 = .ok 1 :=
  ⟨by decide,
    (realify_eigenvectors_spec ℕ true 1 1 0 1).1.mpr ⟨by decide, rfl⟩,
    (realify_eigenvectors_spec ℕ false 1 1 0 1).2.2 (by decide) rfl⟩

/-- Claim C5: with subspace dimension `nX`, `DIIS::solveReducedProblem` sets
`nDim = nX - 1`, hands the SVD solver (threshold `svdThreshold`) exactly the
leading `nDim × nDim` block of the subspace matrix and minus the first `nDim`
rows of its last column, raises the fatal NaN error exactly when a computed
coefficient is NaN, and otherwise stores the coefficients in rows
`0..nDim-1` of the interpolation column with the value `1` in the last row. -/
theorem diis_solve_reduced_spec
    (svdSolve : ℚ → ℕ → (ℕ → ℕ → DScalar) → List DScalar → List DScalar)
    (τ : ℚ) (nX : ℕ) (H : ℕ → ℕ → DScalar) (hX : 1 ≤ nX)
    (hlen : (svdSolve τ (nX - 1) (diisB (nX - 1) H) (diisRhs (nX - 1) H)).length
      = nX - 1) :
    (∀ i j, i < nX - 1 → j < nX - 1 → diisB (nX - 1) H i j = H i j) ∧
    (∀ i, i < nX - 1 →
      (diisRhs (nX - 1) H).getD i .nan = (H i (nX - 1)).negate) ∧
    ((∃ c ∈ svdSolve τ (nX - 1) (diisB (nX - 1) H) (diisRhs (nX - 1) H),
        c.isNaN = true) → 1 < nX →
      diisSolveReducedProblem svdSolve τ nX H = .error .nanDetected) ∧
    ((∀ c ∈ svdSolve τ (nX - 1) (diisB (nX - 1) H) (diisRhs (nX - 1) H),
        c.isNaN = false) →
      diisSolveReducedProblem svdSolve τ nX H =
        .ok (svdSolve τ (nX - 1) (diisB (nX - 1) H) (diisRhs (nX - 1) H)
          ++ [DScalar.num 1]) ∧
      (svdSolve τ (nX - 1) (diisB (nX - 1) H) (diisRhs (nX - 1) H)
          ++ [DScalar.num 1]).length = nX ∧
      (svdSolve τ (nX - 1) (diisB (nX - 1) H) (diisRhs (nX - 1) H)
          ++ [DScalar.num 1]).getLast? = some (DScalar.num 1)) := by
  set C := svdSolve τ (nX - 1) (diisB (nX - 1) H) (diisRhs (nX - 1) H) with hC
  have htake : C.take (nX - 1) = C := by
    rw [← hlen]
    exact List.take_length C
  refine ⟨?_, ?_, ?_, ?_⟩
  · intro i j hi hj
    simp [diisB, hi, hj]
  · intro i hi
    simp [diisRhs, List.getD_eq_getElem?_getD, hi]
  · rintro ⟨c, hc, hcnan⟩ h1
    have hpos : 0 < nX - 1 := by omega
    have hany : (C.take (nX - 1)).any DScalar.isNaN = true := by
      rw [htake]
      exact List.any_eq_true.mpr ⟨c, hc, hcnan⟩
    simp only [diisSolveReducedProblem, ← hC, if_pos hpos, hany, if_pos rfl]
    rfl
  · intro hall
    by_cases hpos : 0 < nX - 1
    · have hany : (C.take (nX - 1)).any DScalar.isNaN = false := by
        rw [htake]
        rw [List.any_eq_false]
        intro c hc
        simp [hall c hc]
      refine ⟨?_, ?_, ?_⟩
      · simp only [diisSolveReducedProblem, ← hC, if_pos hpos, hany]
        rw [htake]
        rfl
      · rw [List.length_append, hlen]
        simp
        omega
      · simp
    · have hz0 : C.length = 0 := by omega
      have hzC : C = [] := List.length_eq_zero.mp hz0
      refine ⟨?_, ?_, ?_⟩
      · rw [hzC, List.nil_append]
        simp only [diisSolveReducedProblem, if_neg hpos]
      · rw [hzC]
        simp only [List.nil_append, List.length_singleton]
        omega
      · rw [hzC]
        rfl

/-- Witness for C5 at `nX = 2` with a solver returning the single coefficient
`5`: the interpolation column is `[5, 1]`. -/
theorem diis_solve_reduced_spec_witness :
    (1 ≤ 2 ∧
      ((fun (_ : ℚ) (_ : ℕ) (_ : ℕ → ℕ → DScalar) (_ : List DScalar) =>
        [DScalar.num 5]) (1/2) (2 - 1) (diisB (2 - 1) (fun i j => DScalar.num (i + j)))
        (diisRhs (2 - 1) (fun i j => DScalar.num (i + j)))).length = 2 - 1) ∧
    diisSolveReducedProblem
      (fun (_ : ℚ) (_ : ℕ) (_ : ℕ → ℕ → DScalar) (_ : List DScalar) => [DScalar.num 5])
      (1/2) 2 (fun i j => DScalar.num (i + j)) =
      .ok [DScalar.num 5, DScalar.num 1] :=
  ⟨⟨by norm_num, rfl⟩,
    ((diis_solve_reduced_spec
      (fun _ _ _ _ => [DScalar.num 5]) (1/2) 2 (fun i j => DScalar.num (i + j))
      (by norm_num) rfl).2.2.2 (by decide)).1⟩

/-!
## Theorems for C2, C8
-/

/-- The running index kept by the `std::min_element` fold stays within the
start index or the visited elements, and tracks the minimum value. -/
theorem argmin_foldl_spec (l : List ℚ) (L : List ℕ) (b : ℕ) :
    (L.foldl (fun b i => if l.getD i 0 < l.getD b 0 then i else b) b = b ∨
      L.foldl (fun b i => if l.getD i 0 < l.getD b 0 then i else b) b ∈ L) ∧
    l.getD (L.foldl (fun b i => if l.getD i 0 < l.getD b 0 then i else b) b) 0 ≤
      l.getD b 0 ∧
    (∀ i ∈ L,
      l.getD (L.foldl (fun b i => if l.getD i 0 < l.getD b 0 then i else b) b) 0 ≤
        l.getD i 0) := by
  induction L generalizing b with
  | nil => simp
  | cons x L ih =>
    simp only [List.foldl_cons]
    by_cases hx : l.getD x 0 < l.getD b 0
    · rw [if_pos hx]
      obtain ⟨hmem, hle, hall⟩ := ih x
      refine ⟨?_, le_trans hle (le_of_lt hx), ?_⟩
      · rcases hmem with h | h
        · exact Or.inr (by rw [h]; exact List.mem_cons_self x L)
        · exact Or.inr (List.mem_cons_of_mem _ h)
      · intro i hi
        rcases List.mem_cons.mp hi with h | h
        · subst h; exact hle
        · exact hall i h
    · rw [if_neg hx]
      obtain ⟨hmem, hle, hall⟩ := ih b
      refine ⟨?_, hle, ?_⟩
      · rcases hmem with h | h
        · exact Or.inl h
        · exact Or.inr (List.mem_cons_of_mem _ h)
      · intro i hi
        rcases List.mem_cons.mp hi with h | h
        · subst h; exact le_trans hle (not_lt.mp hx)
        · exact hall i h

/-- `argminIdx` is in range (for non-empty input) and attains the minimum. -/
theorem argminIdx_spec (l : List ℚ) :
    (l ≠ [] → argminIdx l < l.length) ∧
    ∀ j < l.length, l.getD (argminIdx l) 0 ≤ l.getD j 0 := by
  obtain ⟨hmem, -, hall⟩ := argmin_foldl_spec l (List.range l.length) 0
  constructor
  · intro hne
    rcases hmem with h | h
    · rw [argminIdx, h]
      exact List.length_pos.mpr hne
    · exact List.mem_range.mp h
  · intro j hj
    exact hall j (List.mem_range.mpr hj)

/-- `find?` returns the first satisfying element: the list splits at the
returned element with an unsatisfying prefix. -/
theorem find?_first_decomp {α : Type} (p : α → Bool) (l : List α) (a : α)
    (h : l.find? p = some a) :
    ∃ pre post, l = pre ++ a :: post ∧ ∀ x ∈ pre, ¬ p x = true := by
  induction l with
  | nil => cases h
  | cons x l ih =>
    by_cases hx : p x = true
    · rw [List.find?_cons_of_pos _ hx] at h
      obtain rfl : x = a := by injection h
      exact ⟨[], l, rfl, by simp⟩
    · rw [List.find?_cons_of_neg _ hx] at h
      obtain ⟨pre, post, hl, hpre⟩ := ih h
      refine ⟨x :: pre, post, by rw [hl, List.cons_append], ?_⟩
      intro y hy
      rcases List.mem_cons.mp hy with h | h
      · subst h; exact hx
      · exact hpre y h

/-- A non-negative singularity proposal is one of the candidates. -/
theorem propose_nonneg_eq (n : ℕ) (sv : List ℚ) (V : ℕ → ℕ → ℚ)
    (cand : List ℕ) (τ : ℚ)
    (h : 0 ≤ propose_singularity_deletion n sv V cand τ) :
    ∃ k ∈ cand, propose_singularity_deletion n sv V cand τ = (k : Int) := by
  unfold propose_singularity_deletion at h ⊢
  by_cases hτ : τ < (sv.take n).getD (argminIdx (sv.take n)) 0
  · rw [if_pos hτ] at h
    exact absurd h (by norm_num)
  · rw [if_neg hτ] at h ⊢
    cases hf : cand.find?
        (fun k => decide (mkRat 1 1000 < qabs (V k (argminIdx (sv.take n))))) with
    | none =>
      rw [hf] at h
      simp at h
    | some k =>
      exact ⟨k, List.mem_of_find?_eq_some hf, rfl⟩

/-- Any member of the candidate list is an in-range Q offset. -/
theorem mem_singularityCandidates (nP : ℕ) (keys : List ℕ)
    (q_solutions : List (ℕ × ℕ)) (x : ℕ) :
    x ∈ singularityCandidates nP keys q_solutions ↔
      ∃ a, a < keys.length ∧ isSolutionRow keys q_solutions a = false ∧
        x = nP + a := by
  unfold singularityCandidates
  simp only [List.mem_map, List.mem_filter, List.mem_range, Bool.not_eq_true']
  constructor
  · rintro ⟨a, ⟨ha, hs⟩, rfl⟩
    exact ⟨a, ha, hs, rfl⟩
  · rintro ⟨a, ha, hs, rfl⟩
    exact ⟨a, ⟨ha, hs⟩, rfl⟩

/-- Claim C2 (amended): when the smallest singular value of the tested block
does not exceed the threshold (`1e6` in forcing mode, the configured
threshold otherwise), the engine evicts the FIRST candidate, in ascending
Q-index order, whose right-singular-vector coefficient exceeds `1e-3` in
magnitude — no preference is given to larger coefficients; only Q rows not
associated with a converged root are candidates; when the smallest singular
value exceeds the threshold, or no candidate coefficient exceeds `1e-3`,
nothing is evicted (`-1`). -/
theorem singularity_eviction_spec (nP n maxQ : ℕ) (keys : List ℕ)
    (q_solutions : List (ℕ × ℕ)) (sv : List ℚ) (V : ℕ → ℕ → ℚ) (σ τ : ℚ)
    (cand : List ℕ) :
    (maxQ < keys.length → conditioningThreshold keys.length maxQ σ = 1000000) ∧
    (keys.length ≤ maxQ → conditioningThreshold keys.length maxQ σ = σ) ∧
    (∀ x, x ∈ singularityCandidates nP keys q_solutions ↔
      ∃ a, a < keys.length ∧ isSolutionRow keys q_solutions a = false ∧
        x = nP + a) ∧
    List.Pairwise (fun a b => a < b) (singularityCandidates nP keys q_solutions) ∧
    (∀ j < (sv.take n).length,
      (sv.take n).getD (argminIdx (sv.take n)) 0 ≤ (sv.take n).getD j 0) ∧
    (propose_singularity_deletion n sv V cand τ = -1 ↔
      τ < (sv.take n).getD (argminIdx (sv.take n)) 0 ∨
      ∀ k ∈ cand, ¬ mkRat 1 1000 < qabs (V k (argminIdx (sv.take n)))) ∧
    (∀ k : ℕ, propose_singularity_deletion n sv V cand τ = (k : Int) →
      ¬ τ < (sv.take n).getD (argminIdx (sv.take n)) 0 ∧
      mkRat 1 1000 < qabs (V k (argminIdx (sv.take n))) ∧
      ∃ pre post, cand = pre ++ k :: post ∧
        ∀ x ∈ pre, ¬ mkRat 1 1000 < qabs (V x (argminIdx (sv.take n)))) := by
  refine ⟨?_, ?_, mem_singularityCandidates nP keys q_solutions, ?_, ?_, ?_, ?_⟩
  · intro h
    rw [conditioningThreshold, if_pos h]
  · intro h
    rw [conditioningThreshold, if_neg (not_lt.mpr h)]
  · unfold singularityCandidates
    rw [List.pairwise_map]
    exact ((List.pairwise_lt_range keys.length).filter _).imp
      (fun h => Nat.add_lt_add_left h nP)
  · exact (argminIdx_spec (sv.take n)).2
  · unfold propose_singularity_deletion
    by_cases hτ : τ < (sv.take n).getD (argminIdx (sv.take n)) 0
    · rw [if_pos hτ]
      exact ⟨fun _ => Or.inl hτ, fun _ => rfl⟩
    · rw [if_neg hτ]
      cases hf : cand.find?
          (fun k => decide (mkRat 1 1000 < qabs (V k (argminIdx (sv.take n))))) with
      | none =>
        rw [List.find?_eq_none] at hf
        constructor
        · intro _
          refine Or.inr (fun k hk => ?_)
          simpa using hf k hk
        · intro _
          rfl
      | some k =>
        have hmem := List.mem_of_find?_eq_some hf
        have hp := List.find?_some hf
        constructor
        · intro hcast
          exact absurd (show (k : Int) = -1 from hcast) (by omega)
        · intro hall
          rcases hall with h | hall
          · exact absurd h hτ
          · exact absurd (of_decide_eq_true hp) (hall k hmem)
  · intro k hk
    unfold propose_singularity_deletion at hk
    by_cases hτ : τ < (sv.take n).getD (argminIdx (sv.take n)) 0
    · rw [if_pos hτ] at hk
      exact absurd hk (by omega)
    · rw [if_neg hτ] at hk
      cases hf : cand.find?
          (fun k => decide (mkRat 1 1000 < qabs (V k (argminIdx (sv.take n))))) with
      | none =>
        rw [hf] at hk
        simp only [Option.map_none', Option.getD_none] at hk
        exact absurd hk (by omega)
      | some k' =>
        rw [hf] at hk
        simp only [Option.map_some', Option.getD_some] at hk
        have hkk : (k' : Int) = (k : Int) := hk
        obtain rfl : k' = k := by exact_mod_cast hkk
        have hp0 := List.find?_some hf
        simp only [decide_eq_true_eq] at hp0
        obtain ⟨pre, post, hsplit, hpre⟩ := find?_first_decomp _ _ _ hf
        refine ⟨hτ, hp0, pre, post, hsplit, ?_⟩
        intro x hx
        have := hpre x hx
        simpa using this

/-- Witness for C2 (amended) at the counterexample's SVD data: the proposal
returns candidate `0`, the first with coefficient above `1e-3`. -/
theorem singularity_eviction_spec_witness :
    propose_singularity_deletion 2 [2, mkRat 1 2] svdVexample [0, 1] 1 = ((0 : ℕ) : Int) ∧
    (¬ (1:ℚ) < (([2, mkRat 1 2] : List ℚ).take 2).getD
        (argminIdx (([2, mkRat 1 2] : List ℚ).take 2)) 0 ∧
      mkRat 1 1000 < qabs (svdVexample 0 (argminIdx (([2, mkRat 1 2] : List ℚ).take 2))) ∧
      ∃ pre post, ([0, 1] : List ℕ) = pre ++ 0 :: post ∧
        ∀ x ∈ pre, ¬ mkRat 1 1000 <
          qabs (svdVexample x (argminIdx (([2, mkRat 1 2] : List ℚ).take 2)))) :=
  ⟨by decide,
    (singularity_eviction_spec 0 2 0 [] [] [2, mkRat 1 2] svdVexample 0 1 [0, 1]).2.2.2.2.2.2
      0 (by decide)⟩

/-- Claim C2 counterexample: with singular values `(2, 1/2)` (most singular
direction `1`) and right-singular vectors `svdVexample` (coefficients `3/5`
then `4/5`, both above `1e-3`), the code evicts candidate `0` — the first in
candidate order — while the claim's preference for larger coefficients would
evict candidate `1`. -/
theorem singularity_first_not_largest_cex :
    propose_singularity_deletion 2 [2, mkRat 1 2] svdVexample
      (singularityCandidates 0 [10, 11] []) 1 = 0 ∧
    proposeSingularityDeletionClaim 2 [2, mkRat 1 2] svdVexample
      (singularityCandidates 0 [10, 11] []) 1 = 1 ∧
    mkRat 1 1000 < qabs (svdVexample 0 1) ∧ qabs (svdVexample 0 1) < qabs (svdVexample 1 1) := by
  refine ⟨by decide, by decide, by decide, by decide⟩

/-- The conditioning recursion never grows the Q space. -/
theorem condLoop_length_le (svd : List ℕ → List ℚ × (ℕ → ℕ → ℚ))
    (qs : List (ℕ × ℕ)) (nP nR maxQ : ℕ) (σ : ℚ) (exR : Bool) :
    ∀ fuel keys,
      (buildSubspaceConditionLoop svd qs nP nR maxQ σ exR fuel keys).length ≤
        keys.length := by
  intro fuel
  induction fuel with
  | zero => intro keys; exact le_rfl
  | succ fuel ih =>
    intro keys
    unfold buildSubspaceConditionLoop
    by_cases h0 : keys.length = 0
    · rw [if_pos h0]
    · rw [if_neg h0]
      by_cases hd : 0 ≤ conditionProposal svd qs nP nR maxQ σ exR keys
      · rw [if_pos hd]
        exact le_trans (ih _) (List.eraseIdx_sublist _ _).length_le
      · rw [if_neg hd]

/-- If the proposal succeeds at every reachable state that still exceeds
`maxQ`, the conditioning recursion ends with at most `maxQ` Q rows. -/
theorem condLoop_le_maxQ (svd : List ℕ → List ℚ × (ℕ → ℕ → ℚ))
    (qs : List (ℕ × ℕ)) (nP nR maxQ : ℕ) (σ : ℚ) (exR : Bool) :
    ∀ fuel keys, keys.length ≤ fuel →
      (∀ ks, List.Sublist ks keys → maxQ < ks.length →
        0 ≤ conditionProposal svd qs nP nR maxQ σ exR ks) →
      (buildSubspaceConditionLoop svd qs nP nR maxQ σ exR fuel keys).length ≤
        maxQ := by
  intro fuel
  induction fuel with
  | zero =>
    intro keys hf _
    have h0 : keys.length = 0 := Nat.le_zero.mp hf
    unfold buildSubspaceConditionLoop
    omega
  | succ fuel ih =>
    intro keys hf hprop
    by_cases hm : keys.length ≤ maxQ
    · exact le_trans (condLoop_length_le svd qs nP nR maxQ σ exR _ keys) hm
    · have hlt : maxQ < keys.length := not_le.mp hm
      have h0 : ¬ keys.length = 0 := by omega
      have hdel := hprop keys (List.Sublist.refl keys) hlt
      obtain ⟨k, hkmem, hkeq⟩ := propose_nonneg_eq _ _ _ _ _ hdel
      obtain ⟨a, halt, -, rfl⟩ :=
        (mem_singularityCandidates nP keys qs k).mp hkmem
      have htoNat : (conditionProposal svd qs nP nR maxQ σ exR keys).toNat - nP
          = a := by
        unfold conditionProposal
        rw [hkeq]
        omega
      have herase : (keys.eraseIdx a).length = keys.length - 1 := by
        rw [List.length_eraseIdx]
        simp [halt]
      unfold buildSubspaceConditionLoop
      rw [if_neg h0, if_pos hdel, htoNat]
      apply ih
      · omega
      · intro ks hks hkslen
        exact hprop ks (hks.trans (List.eraseIdx_sublist keys a)) hkslen

/-- Claim C8 (amended): at the end of each `buildSubspace` call (hence of
each outer `addVector` iteration), `nQ ≤ maxQ` holds PROVIDED the
singularity proposal finds an eviction candidate whenever the surviving Q
size still exceeds `maxQ` (its threshold then being the forcing `1e6`);
when the proposal fails — the candidate set is exhausted because every Q row
carries a converged solution, or no candidate coefficient exceeds `1e-3` —
no eviction occurs and `nQ` may remain above `maxQ` (see the
counterexample). -/
theorem buildSubspace_nQ_le_maxQ (svd : List ℕ → List ℚ × (ℕ → ℕ → ℚ))
    (qs : List (ℕ × ℕ)) (nP nR maxQ : ℕ) (σ : ℚ) (exR : Bool) (keys : List ℕ)
    (hprop : ∀ ks, List.Sublist ks keys → maxQ < ks.length →
      0 ≤ conditionProposal svd qs nP nR maxQ σ exR ks) :
    (buildSubspaceCondition svd qs nP nR maxQ σ exR keys).length ≤ maxQ :=
  condLoop_le_maxQ svd qs nP nR maxQ σ exR keys.length keys le_rfl hprop

/-- Witness for C8 (amended) at a single Q vector with `maxQ = 1`: the
hypothesis is vacuous (no sublist exceeds length 1) and the loop keeps
`nQ = 1 ≤ maxQ`. -/
theorem buildSubspace_nQ_le_maxQ_witness :
    (∀ ks, List.Sublist ks [5] → 1 < ks.length →
      0 ≤ conditionProposal (fun _ => ([1], fun _ _ => 1)) [] 0 0 1 (mkRat 1 100000)
        false ks) ∧
    (buildSubspaceCondition (fun _ => ([1], fun _ _ => 1)) [] 0 0 1 (mkRat 1 100000)
      false [5]).length ≤ 1 := by
  have hvac : ∀ ks, List.Sublist ks [5] → 1 < ks.length →
      0 ≤ conditionProposal (fun _ => ([1], fun _ _ => 1)) [] 0 0 1 (mkRat 1 100000)
        false ks := by
    intro ks hks hlen
    have h := hks.length_le
    simp only [List.length_cons, List.length_nil] at h
    omega
  exact ⟨hvac,
    buildSubspace_nQ_le_maxQ (fun _ => ([1], fun _ _ => 1)) [] 0 0 1 (mkRat 1 100000)
      false [5] hvac⟩

/-- Claim C8 counterexample: a single Q vector that carries a converged
solution (`m_q_solutions` maps root `0` to its key `7`), with `maxQ = 0`.
The overlap of the one normalised Q vector is the `1 × 1` identity, whose
SVD has singular value `1` and `V = (1)`.  The candidate set is empty, so no
eviction happens and the call ends with `nQ = 1 > maxQ = 0`. -/
theorem buildSubspace_nQ_exceeds_maxQ_cex :
    buildSubspaceCondition (fun _ => ([1], fun _ _ => 1)) [(0, 7)] 0 0 0
      (mkRat 1 100000) false [7] = [7] ∧
    ¬ (buildSubspaceCondition (fun _ => ([1], fun _ _ => 1)) [(0, 7)] 0 0 0
      (mkRat 1 100000) false [7]).length ≤ 0 := by
  constructor <;> decide

/-!
## Theorems for C6
-/

/-- Claim C6: during full interpolation (`actionOnly = false`) for a
working-set root of a variant using the eigen-residual convention, the
assembled solution and residual are both rescaled by the same factor
`1/sqrt(⟨s,s⟩)`, a fatal error is raised if `⟨s,s⟩` is exactly `0`, and
afterwards `λ_root` times the (rescaled) solution is subtracted from the
residual. -/
theorem doInterpolation_eigen_spec (interp : ℕ → ℕ → ℚ) (nP nQ nR : ℕ)
    (pvecs qvecs qacts rvecs vacts : List Vec) (eigval : ℚ) (rhsRoot : Vec)
    (root : ℕ) (dim : ℕ) (sqrtNorm : ℚ)
    (hsq : sqrtNorm * sqrtNorm =
      vdot (interpSolution interp nP nQ nR pvecs qvecs rvecs root false dim)
        (interpSolution interp nP nQ nR pvecs qvecs rvecs root false dim))
    (hpos : 0 ≤ sqrtNorm) :
    (vdot (interpSolution interp nP nQ nR pvecs qvecs rvecs root false dim)
        (interpSolution interp nP nQ nR pvecs qvecs rvecs root false dim) = 0 →
      doInterpolationRoot interp nP nQ nR pvecs qvecs qacts rvecs vacts
        true false 0 eigval rhsRoot root false dim sqrtNorm =
        .error .zeroNorm) ∧
    (vdot (interpSolution interp nP nQ nR pvecs qvecs rvecs root false dim)
        (interpSolution interp nP nQ nR pvecs qvecs rvecs root false dim) ≠ 0 →
      doInterpolationRoot interp nP nQ nR pvecs qvecs qacts rvecs vacts
        true false 0 eigval rhsRoot root false dim sqrtNorm =
        .ok (vscal (1/sqrtNorm)
            (interpSolution interp nP nQ nR pvecs qvecs rvecs root false dim),
          vaxpy (-eigval)
            (vscal (1/sqrtNorm)
              (interpSolution interp nP nQ nR pvecs qvecs rvecs root false dim))
            (vscal (1/sqrtNorm)
              (interpResidual interp nP nQ nR qacts vacts root dim)))) := by
  constructor
  · intro h0
    unfold doInterpolationRoot
    rw [if_pos rfl, if_pos h0]
  · intro h0
    unfold doInterpolationRoot
    rw [if_pos rfl, if_neg h0]
    unfold doInterpPost
    rw [if_neg (fun hc => Bool.false_ne_true hc.2), if_pos ⟨rfl, Or.inl rfl⟩]

/-- Witness for C6 at `nP = nQ = 0`, `nR = 1`, `r_0 = (2)`, `v_0 = (3)`,
unit interpolation weight, `λ = 5`, `sqrtNorm = 2` (indeed `2·2 = ⟨s,s⟩ = 4`):
the call succeeds and returns the rescaled pair with the eigenvalue
subtraction applied. -/
theorem doInterpolation_eigen_spec_witness :
    ((2:ℚ) * 2 =
      vdot (interpSolution (fun _ _ => 1) 0 0 1 [] [] [[2]] 0 false 1)
        (interpSolution (fun _ _ => 1) 0 0 1 [] [] [[2]] 0 false 1) ∧
      (0:ℚ) ≤ 2 ∧
      vdot (interpSolution (fun _ _ => 1) 0 0 1 [] [] [[2]] 0 false 1)
        (interpSolution (fun _ _ => 1) 0 0 1 [] [] [[2]] 0 false 1) ≠ 0) ∧
    doInterpolationRoot (fun _ _ => 1) 0 0 1 [] [] [] [[2]] [[3]]
        true false 0 5 [] 0 false 1 2 =
      .ok (vscal (1/2)
          (interpSolution (fun _ _ => 1) 0 0 1 [] [] [[2]] 0 false 1),
        vaxpy (-5)
          (vscal (1/2)
            (interpSolution (fun _ _ => 1) 0 0 1 [] [] [[2]] 0 false 1))
          (vscal (1/2)
            (interpResidual (fun _ _ => 1) 0 0 1 [] [[3]] 0 1))) :=
  ⟨⟨by norm_num [interpSolution, vdot, vaxpy, vzero, List.range_succ], by norm_num,
      by norm_num [interpSolution, vdot, vaxpy, vzero, List.range_succ]⟩,
    (doInterpolation_eigen_spec (fun _ _ => 1) 0 0 1 [] [] [] [[2]] [[3]] 5 []
      0 1 2 (by norm_num [interpSolution, vdot, vaxpy, vzero, List.range_succ]) (by norm_num)).2
      (by norm_num [interpSolution, vdot, vaxpy, vzero, List.range_succ])⟩

/-!
## Theorems for C4
-/

/-- Claim C4 (amended): with a non-empty Q space, `Optimize` accepts the
current point (rather than proposing a further line-search step) if and only
if `g1` is below the convergence threshold, or both Wolfe conditions hold
(`W1 ≡ f1 ≤ f0 + c1·g0`; `W2 ≡ g1 ≥ c2·g0` for strong Wolfe,
`|g1| ≤ c2·|g0|` for weak Wolfe), OR the cubic line-search interpolation
yields a correctly bracketed minimum at `α ≤` grow factor with
`|α - 1| <` the line-search tolerance (the "don't bother with linesearch"
shortcut). -/
theorem optimize_accept_iff (strong : Bool)
    (thresh c1 c2 tol grow step f0 f1 g0 g1 sqrtD : ℚ) :
    optimizeDecide strong thresh c1 c2 tol grow step f0 f1 g0 g1 sqrtD =
        .accept ↔
      (g1 < thresh ∨ (f1 ≤ f0 + c1 * g0 ∧
        (if strong = true then c2 * g0 ≤ g1 else qabs g1 ≤ c2 * qabs g0))) ∨
      (∃ a f, guardedMinimum f0 f1 g0 g1 sqrtD = some (a, f) ∧ a ≤ grow ∧
        qabs (a - 1) < tol) := by
  have hbool : (decide (g1 < thresh) || (decide (f1 ≤ f0 + c1 * g0) &&
      (if strong then decide (c2 * g0 ≤ g1)
        else decide (qabs g1 ≤ c2 * qabs g0)))) = true ↔
      (g1 < thresh ∨ (f1 ≤ f0 + c1 * g0 ∧
        (if strong = true then c2 * g0 ≤ g1 else qabs g1 ≤ c2 * qabs g0))) := by
    cases strong <;> simp
  unfold optimizeDecide
  by_cases hc : (decide (g1 < thresh) || (decide (f1 ≤ f0 + c1 * g0) &&
      (if strong then decide (c2 * g0 ≤ g1)
        else decide (qabs g1 ≤ c2 * qabs g0)))) = true
  · rw [if_pos hc]
    exact ⟨fun _ => Or.inl (hbool.mp hc), fun _ => rfl⟩
  · rw [if_neg hc]
    have hW : ¬ (g1 < thresh ∨ (f1 ≤ f0 + c1 * g0 ∧
        (if strong = true then c2 * g0 ≤ g1 else qabs g1 ≤ c2 * qabs g0))) :=
      fun h => hc (hbool.mpr h)
    cases hg : guardedMinimum f0 f1 g0 g1 sqrtD with
    | none =>
      constructor
      · intro h
        exact OptOutcome.noConfusion h
      · rintro (h | ⟨a, f, haf, -, -⟩)
        · exact absurd h hW
        · exact Option.noConfusion haf
    | some af =>
      obtain ⟨a, f⟩ := af
      show ((if grow < a then OptOutcome.linesearch ((grow - 1) * step)
        else if qabs (a - 1) < tol then OptOutcome.accept
        else OptOutcome.linesearch ((a - 1) * step)) = OptOutcome.accept) ↔ _
      by_cases hgrow : grow < a
      · rw [if_pos hgrow]
        constructor
        · intro h
          exact OptOutcome.noConfusion h
        · rintro (h | ⟨a', f', haf, hle, -⟩)
          · exact absurd h hW
          · obtain ⟨rfl, rfl⟩ : a = a' ∧ f = f' := by
              have := Option.some.inj haf
              exact ⟨congrArg Prod.fst this, congrArg Prod.snd this⟩
            exact absurd hgrow (not_lt.mpr hle)
      · rw [if_neg hgrow]
        by_cases htol : qabs (a - 1) < tol
        · rw [if_pos htol]
          exact ⟨fun _ => Or.inr ⟨a, f, rfl, not_lt.mp hgrow, htol⟩,
            fun _ => rfl⟩
        · rw [if_neg htol]
          constructor
          · intro h
            exact OptOutcome.noConfusion h
          · rintro (h | ⟨a', f', haf, -, htol'⟩)
            · exact absurd h hW
            · obtain ⟨rfl, rfl⟩ : a = a' ∧ f = f' := by
                have := Option.some.inj haf
                exact ⟨congrArg Prod.fst this, congrArg Prod.snd this⟩
              exact absurd htol' htol

/-- Evaluation lemma: `interpolatedMinimum` in the generic cubic branch,
with the intermediate turning points and values supplied as equations. -/
theorem interpolatedMinimum_cubic (f0 f1 g0 g1 sqrtD am ap fm fp : ℚ)
    (h1 : ¬ qabs (2*f1 - g1 - 2*f0 - g0) < 1/10000000000)
    (h2 : ¬ cubicDiscriminant f0 f1 g0 g1 < 0)
    (h3 : ¬ 2*f0 - 2*f1 + g0 + g1 = 0)
    (ham : (3*f0 - 3*f1 + 2*g0 + g1 - sqrtD) / (3*(2*f0 - 2*f1 + g0 + g1)) = am)
    (hap : (3*f0 - 3*f1 + 2*g0 + g1 + sqrtD) / (3*(2*f0 - 2*f1 + g0 + g1)) = ap)
    (hfm : f0 + am*(g0 + am*(-(3*f0) + 3*f1 - 2*g0 - g1 +
      am*(2*f0 - 2*f1 + g0 + g1))) = fm)
    (hfp : f0 + ap*(g0 + ap*(-(3*f0) + 3*f1 - 2*g0 - g1 +
      ap*(2*f0 - 2*f1 + g0 + g1))) = fp) :
    interpolatedMinimum f0 f1 g0 g1 sqrtD =
      some (0 + (if fm < fp then am else ap) * (1 - 0), min fm fp) := by
  simp only [interpolatedMinimum]
  rw [if_neg h1, if_neg h2, if_neg h3, if_neg h3, ham, hap, hfm, hfp]

set_option maxHeartbeats 1000000 in
/-- Claim C4 counterexample: with weak Wolfe conditions and the default
parameters (`thresh = 1e-8`, `c1 = 1e-4`, `c2 = 0.9`, tolerance `0.2`, grow
factor `3`), at `f0 = 0`, `f1 = -0.47`, `g0 = -0.27`, `g1 = 0.33` the Wolfe
test fails (`|g1| > c2*|g0|`) and `g1` is far above the threshold, yet the
code ACCEPTS the point: the cubic through the data (discriminant `9/4`, so
`sqrtD = 3/2` exactly) has its preferred minimum at `alpha = 9/10`, and
`|alpha - 1| = 1/10 < 0.2` triggers the "don't bother" acceptance. -/
theorem optimize_accepts_without_wolfe_cex :
    optimizeDecide false (1/100000000) (1/10000) (9/10) (1/5) 3 1
      0 (-(47/100)) (-(27/100)) (33/100) (3/2) = .accept ∧
    ¬ ((33/100 : ℚ) < 1/100000000 ∨
      ((-(47/100) : ℚ) ≤ 0 + (1/10000) * (-(27/100)) ∧
        qabs (33/100 : ℚ) ≤ (9/10) * qabs (-(27/100) : ℚ))) ∧
    (3/2 : ℚ) * (3/2) = cubicDiscriminant 0 (-(47/100)) (-(27/100)) (33/100) ∧
    (0:ℚ) ≤ 3/2 := by
  have him := interpolatedMinimum_cubic 0 (-(47/100)) (-(27/100)) (33/100)
    (3/2) (-(1/10)) (9/10) (7/500) (-(243/500))
    (by norm_num [qabs]) (by norm_num [cubicDiscriminant]) (by norm_num)
    (by norm_num) (by norm_num) (by norm_num) (by norm_num)
  have him2 : interpolatedMinimum 0 (-(47/100)) (-(27/100)) (33/100) (3/2) =
      some (9/10, -(243/500)) := by
    rw [him, if_neg (by norm_num : ¬ (7/500 : ℚ) < -(243/500)),
      min_eq_right (by norm_num : (-(243/500) : ℚ) ≤ 7/500)]
    norm_num
  have hgm : guardedMinimum 0 (-(47/100)) (-(27/100)) (33/100) (3/2) =
      some (9/10, -(243/500)) := by
    unfold guardedMinimum
    rw [him2]
    show (if ((0:ℚ) < -(27/100) ∧ (0:ℚ) < 33/100 ∧ (0:ℚ) < 9/10) ∨
        ((-(27/100):ℚ) < 0 ∧ (33/100:ℚ) < 0 ∧ (9/10:ℚ) < 1) then none
      else some ((9/10 : ℚ), (-(243/500) : ℚ))) = some (9/10, -(243/500))
    rw [if_neg (by norm_num)]
  refine ⟨?_, ?_, ?_, ?_⟩
  · have hg1 : decide ((33/100:ℚ) < 1/100000000) = false :=
      decide_eq_false (by norm_num)
    have hW2 : decide (qabs (33/100:ℚ) ≤ (9/10) * qabs (-(27/100):ℚ)) = false :=
      decide_eq_false (by norm_num [qabs])
    unfold optimizeDecide
    rw [if_neg (by rw [hg1, hW2]; simp)]
    rw [hgm]
    show (if (3:ℚ) < 9/10 then OptOutcome.linesearch (((3:ℚ) - 1) * 1)
      else if qabs ((9/10 : ℚ) - 1) < 1/5 then OptOutcome.accept
      else OptOutcome.linesearch (((9/10 : ℚ) - 1) * 1)) = OptOutcome.accept
    rw [if_neg (by norm_num), if_pos (by norm_num [qabs])]
  · norm_num [qabs]
  · norm_num [cubicDiscriminant]
  · norm_num

/-!
## Theorems for C3
-/

/-- The first unmapped index is unmapped and at most `map.size()`. -/
theorem firstUnmapped_spec (m : List ℕ) (hm : m.Nodup) :
    firstUnmapped m ∉ m ∧ firstUnmapped m ≤ m.length := by
  unfold firstUnmapped
  cases hf : (List.range (m.length + 1)).find? (fun l => decide (l ∉ m)) with
  | none =>
    exfalso
    rw [List.find?_eq_none] at hf
    have hsub : List.range (m.length + 1) ⊆ m := by
      intro l hl
      by_contra hcon
      exact hf l hl (decide_eq_true hcon)
    have hle := (List.subperm_of_subset (List.nodup_range _) hsub).length_le
    simp only [List.length_range] at hle
    omega
  | some l0 =>
    have h1 := List.find?_some hf
    have h2 := List.mem_of_find?_eq_some hf
    simp only [decide_eq_true_eq] at h1
    refine ⟨?_, ?_⟩
    · show l0 ∉ m
      exact h1
    · show l0 ≤ m.length
      have := List.mem_range.mp h2
      omega

/-- The running index of the inner selection scan stays unmapped, stays at
the start or among the visited indices, and tracks the minimum over the
visited unmapped indices. -/
theorem selectNext_fold (vals : List ℚ) (m : List ℕ) (L : List ℕ) (b : ℕ)
    (hb : b ∉ m) :
    (L.foldl (fun ll l => if l ∉ m ∧ vals.getD l 0 < vals.getD ll 0 then l
      else ll) b = b ∨
      L.foldl (fun ll l => if l ∉ m ∧ vals.getD l 0 < vals.getD ll 0 then l
        else ll) b ∈ L) ∧
    L.foldl (fun ll l => if l ∉ m ∧ vals.getD l 0 < vals.getD ll 0 then l
      else ll) b ∉ m ∧
    vals.getD (L.foldl (fun ll l => if l ∉ m ∧ vals.getD l 0 < vals.getD ll 0
      then l else ll) b) 0 ≤ vals.getD b 0 ∧
    (∀ l ∈ L, l ∉ m →
      vals.getD (L.foldl (fun ll l => if l ∉ m ∧ vals.getD l 0 < vals.getD ll 0
        then l else ll) b) 0 ≤ vals.getD l 0) := by
  induction L generalizing b with
  | nil => exact ⟨Or.inl rfl, hb, le_rfl, by simp⟩
  | cons x L ih =>
    simp only [List.foldl_cons]
    by_cases hx : x ∉ m ∧ vals.getD x 0 < vals.getD b 0
    · rw [if_pos hx]
      obtain ⟨hmem, hnotin, hle, hall⟩ := ih x hx.1
      refine ⟨?_, hnotin, le_trans hle (le_of_lt hx.2), ?_⟩
      · rcases hmem with h | h
        · exact Or.inr (by rw [h]; exact List.mem_cons_self x L)
        · exact Or.inr (List.mem_cons_of_mem _ h)
      · intro l hl hlm
        rcases List.mem_cons.mp hl with h | h
        · subst h; exact hle
        · exact hall l h hlm
    · rw [if_neg hx]
      obtain ⟨hmem, hnotin, hle, hall⟩ := ih b hb
      refine ⟨?_, hnotin, hle, ?_⟩
      · rcases hmem with h | h
        · exact Or.inl h
        · exact Or.inr (List.mem_cons_of_mem _ h)
      · intro l hl hlm
        rcases List.mem_cons.mp hl with h | h
        · subst h
          have : ¬ vals.getD l 0 < vals.getD b 0 := fun hc => hx ⟨hlm, hc⟩
          exact le_trans hle (not_lt.mp this)
        · exact hall l h hlm

/-- `selectNext` picks an unmapped in-range index whose value is minimal
among the unmapped indices. -/
theorem selectNext_spec (vals : List ℚ) (m : List ℕ) (hm : m.Nodup)
    (hlen : m.length < vals.length) :
    selectNext vals m ∉ m ∧ selectNext vals m < vals.length ∧
    ∀ l < vals.length, l ∉ m →
      vals.getD (selectNext vals m) 0 ≤ vals.getD l 0 := by
  have hfu := firstUnmapped_spec m hm
  obtain ⟨hmem, hnotin, hle, hall⟩ :=
    selectNext_fold vals m (List.range vals.length) (firstUnmapped m) hfu.1
  refine ⟨hnotin, ?_, ?_⟩
  · rcases hmem with h | h
    · rw [selectNext, h]
      exact lt_of_le_of_lt hfu.2 hlen
    · exact List.mem_range.mp h
  · intro l hl hlm
    exact hall l (List.mem_range.mpr hl) hlm

/-- The selection-sort invariant holds after every step. -/
theorem sortSteps_inv (vals : List ℚ) :
    ∀ k, k ≤ vals.length →
      (sortSteps vals k).length = k ∧ SortInv vals (sortSteps vals k) := by
  intro k
  induction k with
  | zero =>
    intro _
    refine ⟨rfl, ?_, ?_, ?_, ?_⟩ <;> simp [sortSteps]
  | succ k ih =>
    intro hk
    obtain ⟨hlen, hnd, hbnd, hsorted, hmin⟩ := ih (by omega)
    have hsel := selectNext_spec vals (sortSteps vals k) hnd (by omega)
    have hxnot := hsel.1
    have hxlt := hsel.2.1
    have hxmin := hsel.2.2
    constructor
    · simp [sortSteps, hlen]
    · show SortInv vals (sortSteps vals k ++ [selectNext vals (sortSteps vals k)])
      refine ⟨?_, ?_, ?_, ?_⟩
      · refine hnd.append (List.nodup_singleton _) ?_
        intro a ha hax
        rw [List.mem_singleton] at hax
        subst hax
        exact hxnot ha
      · intro x hx
        rcases List.mem_append.mp hx with h | h
        · exact hbnd x h
        · rw [List.mem_singleton] at h
          subst h
          exact hxlt
      · rw [List.pairwise_append]
        refine ⟨hsorted, List.pairwise_singleton _ _, ?_⟩
        intro a ha b hb
        rw [List.mem_singleton] at hb
        subst hb
        exact hmin a ha _ hxlt hxnot
      · intro x hx l hl hlnot
        have hlm : l ∉ sortSteps vals k := fun hc =>
          hlnot (List.mem_append.mpr (Or.inl hc))
        rcases List.mem_append.mp hx with h | h
        · exact hmin x h l hl hlm
        · rw [List.mem_singleton] at h
          subst h
          exact hxmin l hl hlm

/-- The selection permutation is a permutation of `0..n-1` whose image
values are in non-decreasing order. -/
theorem sortPerm_spec (vals : List ℚ) :
    (sortPerm vals).Perm (List.range vals.length) ∧
    List.Pairwise (fun a b => vals.getD a 0 ≤ vals.getD b 0) (sortPerm vals) ∧
    (sortPerm vals).length = vals.length ∧
    (∀ x ∈ sortPerm vals, x < vals.length) := by
  obtain ⟨hlen, hnd, hbnd, hsorted, -⟩ := sortSteps_inv vals vals.length le_rfl
  have hsub : sortPerm vals ⊆ List.range vals.length := fun x hx =>
    List.mem_range.mpr (hbnd x hx)
  refine ⟨?_, hsorted, hlen, hbnd⟩
  exact (List.subperm_of_subset hnd hsub).perm_of_length_le
    (by rw [hlen, List.length_range])

/-- Reading every position of a list through `getD` reproduces the list. -/
theorem map_getD_range {α : Type} (d : α) (ps : List α) :
    (List.range ps.length).map (fun i => ps.getD i d) = ps := by
  apply List.ext_getElem
  · simp
  · intro i h1 h2
    simp only [List.getElem_map, List.getElem_range]
    exact List.getD_eq_getElem ps d h2

/-- Claim C3: for the linear-eigensystem variant, `solveReducedProblem`
sorts the eigenpairs of the reduced problem by ascending real part of the
eigenvalue (the sorted list is a permutation of the eigenpairs with
non-decreasing real parts), and the resulting interpolation matrix consists
of (the real parts of) the first `min(nRoots, nX)` sorted eigenvectors. -/
theorem linear_eigensystem_sort_interpolation (ps : List ((ℚ × ℚ) × CVec))
    (roots nXrows : ℕ) :
    (sortEigenpairs ps).Perm ps ∧
    List.Pairwise (fun p q => p.1.1 ≤ q.1.1) (sortEigenpairs ps) ∧
    eigenInterpolation roots nXrows ((sortEigenpairs ps).map Prod.snd) =
      ((sortEigenpairs ps).take (min roots nXrows)).map
        (fun p => p.2.map Prod.fst) := by
  have hspec := sortPerm_spec (ps.map (fun p => p.1.1))
  obtain ⟨hperm, hsorted, hlen, hbnd⟩ := hspec
  have hvlen : (ps.map (fun p => p.1.1)).length = ps.length := by simp
  have hval : ∀ a < ps.length,
      (ps.map (fun p => p.1.1)).getD a 0 = (ps.getD a ((0, 0), [])).1.1 := by
    intro a ha
    rw [List.getD_eq_getElem _ _ (by simpa using ha),
      List.getD_eq_getElem _ _ ha, List.getElem_map]
  refine ⟨?_, ?_, ?_⟩
  · have hmap := hperm.map (fun i => ps.getD i ((0, 0), []))
    rw [hvlen] at hmap
    rw [map_getD_range ((0, 0), []) ps] at hmap
    exact hmap
  · unfold sortEigenpairs
    rw [List.pairwise_map]
    refine hsorted.imp_of_mem ?_
    intro a b ha hb hab
    have ha' := hbnd a ha
    have hb' := hbnd b hb
    rw [hvlen] at ha' hb'
    rw [hval a ha', hval b hb'] at hab
    exact hab
  · unfold eigenInterpolation
    rw [← List.map_take, List.map_map]
    rfl

end ItSolv
